import Mathlib

/-!
Verification of the `chapter_two` model from `intro_solid_modeling`.

The Rust source stores points and lines of a geometric graph in two
`BTreeMap`s keyed by monotonically increasing integer handles.  We embed
each `BTreeMap` as an association list sorted strictly by key (which is
exactly the observable content of a `BTreeMap` iterated in key order) and
translate every method of `Model` directly.  `usize` handles become `Nat`,
`i64` coordinates become `Int`, and the panicking map index used by
`get_point_lines` / `del_point` becomes an `Option` result (`none` models
the panic).
-/

namespace SolidModel

/-- Rust `Point`: homogeneous coordinates plus the incident-line handles.
Equality is the derived structural one (the `lines` vector is compared
element by element, in order), matching Rust `#[derive(PartialEq, Eq)]`. -/
structure Point where
  x : Int
  y : Int
  z : Int
  w : Int
  lines : List Nat
deriving DecidableEq

/-- Rust `Line`: an ordered pair of point handles. -/
structure Line where
  p1 : Nat
  p2 : Nat
deriving DecidableEq

/-- `BTreeMap::get` on the sorted-association-list view. -/
def btreeGet {α : Type} (k : Nat) : List (Nat × α) → Option α
  | [] => none
  | (k', v) :: t => if k = k' then some v else btreeGet k t

/-- `BTreeMap::insert` on the sorted-association-list view: place the new
binding at its key position, replacing an existing binding for the key. -/
def btreeInsert {α : Type} (k : Nat) (v : α) : List (Nat × α) → List (Nat × α)
  | [] => [(k, v)]
  | (k', v') :: t =>
    if k < k' then (k, v) :: (k', v') :: t
    else if k = k' then (k, v) :: t
    else (k', v') :: btreeInsert k v t

/-- `BTreeMap::remove` on the sorted-association-list view. -/
def btreeRemove {α : Type} (k : Nat) : List (Nat × α) → List (Nat × α)
  | [] => []
  | (k', v') :: t => if k = k' then t else (k', v') :: btreeRemove k t

/-- `BTreeMap::last_key_value`: with keys sorted ascending this is the last
binding of the list. -/
def lastKeyValue {α : Type} (l : List (Nat × α)) : Option (Nat × α) :=
  l.getLast?

/-- Keys strictly increase along the list: the invariant every `BTreeMap`
view satisfies. -/
def sortedKeys {α : Type} (l : List (Nat × α)) : Prop :=
  l.Pairwise (fun a b => a.1 < b.1)

instance {α : Type} (l : List (Nat × α)) : Decidable (sortedKeys l) :=
  List.instDecidablePairwise l

/-- Rust `Model`: the two handle-keyed maps. -/
structure Model where
  points : List (Nat × Point)
  lines : List (Nat × Line)
deriving DecidableEq

/-- Both maps of the model are well-formed `BTreeMap` views. -/
def Model.WF (m : Model) : Prop :=
  sortedKeys m.points ∧ sortedKeys m.lines

instance (m : Model) : Decidable m.WF :=
  inferInstanceAs (Decidable (_ ∧ _))

/-- `Model::new`. -/
def Model.new : Model := ⟨[], []⟩

/-- The handle chosen by `add_point` / `add_line`:
`last_key_value` plus one, or `1` for an empty map. -/
def nextHandle {α : Type} (l : List (Nat × α)) : Nat :=
  match lastKeyValue l with
  | some (h, _) => h + 1
  | none => 1

/-- `Model::add_point`. -/
def Model.add_point (m : Model) (x y z w : Int) : Nat × Model :=
  let handle := nextHandle m.points
  (handle, { m with points := btreeInsert handle ⟨x, y, z, w, []⟩ m.points })

/-- `Model::add_line_to_point`: append the line handle to the point's list
when the point exists, silently do nothing otherwise. -/
def Model.add_line_to_point (m : Model) (ph lh : Nat) : Model :=
  match btreeGet ph m.points with
  | some p => { m with points := btreeInsert ph { p with lines := p.lines ++ [lh] } m.points }
  | none => m

/-- `Model::add_line`. -/
def Model.add_line (m : Model) (p1 p2 : Nat) : Nat × Model :=
  let handle := nextHandle m.lines
  let m1 : Model := { m with lines := btreeInsert handle ⟨p1, p2⟩ m.lines }
  let m2 := m1.add_line_to_point p1 handle
  let m3 := m2.add_line_to_point p2 handle
  (handle, m3)

/-- `Model::get_point_lines`: Rust indexes `self.points[&handle]`, which
panics when the handle is absent; `none` models the panic. -/
def Model.get_point_lines (m : Model) (handle : Nat) : Option (List Nat) :=
  match btreeGet handle m.points with
  | some p => some p.lines
  | none => none

/-- `Model::del_line`. -/
def Model.del_line (m : Model) (handle : Nat) : Model :=
  { m with lines := btreeRemove handle m.lines }

/-- `Model::del_point`: read the point's incident list (panicking if the
point is absent), remove each recorded line, then remove the point. -/
def Model.del_point (m : Model) (handle : Nat) : Option Model :=
  match m.get_point_lines handle with
  | none => none
  | some ls =>
    some { points := btreeRemove handle m.points,
           lines := ls.foldl (fun acc lh => btreeRemove lh acc) m.lines }

/-- The largest key of a map view (`0` when empty); for a sorted view this
is the key `last_key_value` reports. -/
def maxKey {α : Type} (l : List (Nat × α)) : Nat :=
  (l.map Prod.fst).foldr Nat.max 0

/-- The point a single `add_point` call stores for a coordinate tuple. -/
def mkPoint (c : Int × Int × Int × Int) : Point :=
  ⟨c.1, c.2.1, c.2.2.1, c.2.2.2, []⟩

/-- Run a sequence of `add_point` calls, collecting the returned handles. -/
def runAddPoints (m : Model) : List (Int × Int × Int × Int) → List Nat × Model
  | [] => ([], m)
  | c :: cs =>
    let r := m.add_point c.1 c.2.1 c.2.2.1 c.2.2.2
    let rest := runAddPoints r.2 cs
    (r.1 :: rest.1, rest.2)

/-- The point map produced by storing a coordinate list at consecutive
handles starting from `k`. -/
def pointsFrom (k : Nat) : List (Int × Int × Int × Int) → List (Nat × Point)
  | [] => []
  | c :: cs => (k, mkPoint c) :: pointsFrom (k + 1) cs

/-! ## Basic lemmas about the map operations -/

theorem btreeGet_insert_self {α : Type} (k : Nat) (v : α) (l : List (Nat × α)) :
    btreeGet k (btreeInsert k v l) = some v := by
  induction l with
  | nil => simp [btreeInsert, btreeGet]
  | cons a t ih =>
    obtain ⟨k', v'⟩ := a
    by_cases hlt : k < k'
    · simp [btreeInsert, hlt, btreeGet]
    · by_cases heq : k = k'
      · simp [btreeInsert, hlt, heq, btreeGet]
      · simp [btreeInsert, hlt, heq, btreeGet, ih]

theorem btreeGet_insert_ne {α : Type} (k k' : Nat) (v : α) (l : List (Nat × α))
    (h : k ≠ k') : btreeGet k (btreeInsert k' v l) = btreeGet k l := by
  induction l with
  | nil => simp [btreeInsert, btreeGet, h]
  | cons a t ih =>
    obtain ⟨k1, v1⟩ := a
    by_cases hlt : k' < k1
    · simp [btreeInsert, hlt, btreeGet, h]
    · by_cases heq : k' = k1
      · subst heq
        simp [btreeInsert, hlt, btreeGet, h]
      · by_cases hk1 : k = k1
        · simp [btreeInsert, hlt, heq, btreeGet, hk1]
        · simp [btreeInsert, hlt, heq, btreeGet, hk1, ih]

theorem btreeGet_remove_ne {α : Type} (k k' : Nat) (l : List (Nat × α))
    (h : k ≠ k') : btreeGet k (btreeRemove k' l) = btreeGet k l := by
  induction l with
  | nil => simp [btreeRemove]
  | cons a t ih =>
    obtain ⟨k1, v1⟩ := a
    by_cases heq : k' = k1
    · subst heq
      simp [btreeRemove, btreeGet, h]
    · by_cases hk1 : k = k1
      · simp [btreeRemove, heq, btreeGet, hk1]
      · simp [btreeRemove, heq, btreeGet, hk1, ih]

theorem btreeRemove_sublist {α : Type} (k : Nat) (l : List (Nat × α)) :
    (btreeRemove k l).Sublist l := by
  induction l with
  | nil => simp [btreeRemove]
  | cons a t ih =>
    obtain ⟨k1, v1⟩ := a
    by_cases heq : k = k1
    · simp [btreeRemove, heq]
    · simpa [btreeRemove, heq] using List.Sublist.cons₂ (k1, v1) ih

theorem sortedKeys_remove {α : Type} (k : Nat) (l : List (Nat × α))
    (h : sortedKeys l) : sortedKeys (btreeRemove k l) :=
  List.Pairwise.sublist (btreeRemove_sublist k l) h

theorem btreeGet_eq_none_of_forall {α : Type} (k : Nat) (l : List (Nat × α))
    (h : ∀ p ∈ l, p.1 ≠ k) : btreeGet k l = none := by
  induction l with
  | nil => rfl
  | cons a t ih =>
    obtain ⟨k1, v1⟩ := a
    have hk1 : k1 ≠ k := h (k1, v1) (by simp)
    have hne : k ≠ k1 := fun hc => hk1 hc.symm
    rw [btreeGet, if_neg hne]
    exact ih fun p hp => h p (by simp [hp])

theorem btreeGet_remove_self {α : Type} (k : Nat) (l : List (Nat × α))
    (h : sortedKeys l) : btreeGet k (btreeRemove k l) = none := by
  induction l with
  | nil => rfl
  | cons a t ih =>
    obtain ⟨k1, v1⟩ := a
    have ht : sortedKeys t := (List.pairwise_cons.mp h).2
    by_cases heq : k = k1
    · subst heq
      have hall : ∀ p ∈ t, p.1 ≠ k := by
        intro p hp
        have := (List.pairwise_cons.mp h).1 p hp
        omega
      simpa [btreeRemove] using btreeGet_eq_none_of_forall k t hall
    · simp [btreeRemove, fun hc : k = k1 => heq hc, btreeGet, heq, ih ht]

theorem btreeRemove_of_get_none {α : Type} (k : Nat) (l : List (Nat × α))
    (h : btreeGet k l = none) : btreeRemove k l = l := by
  induction l with
  | nil => rfl
  | cons a t ih =>
    obtain ⟨k1, v1⟩ := a
    by_cases heq : k = k1
    · simp [btreeGet, heq] at h
    · simp [btreeGet, heq] at h
      simp [btreeRemove, heq, ih h]

theorem btreeRemove_length {α : Type} (k : Nat) (l : List (Nat × α)) (v : α)
    (h : btreeGet k l = some v) :
    (btreeRemove k l).length + 1 = l.length := by
  induction l with
  | nil => simp [btreeGet] at h
  | cons a t ih =>
    obtain ⟨k1, v1⟩ := a
    by_cases heq : k = k1
    · simp [btreeRemove, heq]
    · simp [btreeGet, heq] at h
      simp [btreeRemove, heq, ih h]

theorem btreeGet_eq_none_iff {α : Type} (k : Nat) (l : List (Nat × α)) :
    btreeGet k l = none ↔ ∀ p ∈ l, p.1 ≠ k := by
  constructor
  · induction l with
    | nil => intro _ p hp; simp at hp
    | cons a t ih =>
      obtain ⟨k1, v1⟩ := a
      intro h p hp
      by_cases heq : k = k1
      · simp [btreeGet, heq] at h
      · simp [btreeGet, heq] at h
        rcases List.mem_cons.mp hp with hc | hc
        · subst hc; exact fun hc' => heq hc'.symm
        · exact ih h p hc
  · exact btreeGet_eq_none_of_forall k l

theorem foldl_remove_sublist {α : Type} (ls : List Nat) (L : List (Nat × α)) :
    (ls.foldl (fun acc k => btreeRemove k acc) L).Sublist L := by
  induction ls generalizing L with
  | nil => simp
  | cons a t ih =>
    exact List.Sublist.trans (ih (btreeRemove a L)) (btreeRemove_sublist a L)

theorem btreeGet_none_of_sublist {α : Type} (k : Nat) {L L' : List (Nat × α)}
    (hsub : L'.Sublist L) (h : btreeGet k L = none) : btreeGet k L' = none :=
  (btreeGet_eq_none_iff k L').mpr fun p hp =>
    (btreeGet_eq_none_iff k L).mp h p (hsub.subset hp)

theorem foldl_remove_get_none {α : Type} (ls : List Nat) (L : List (Nat × α))
    (hL : sortedKeys L) (lh : Nat) (hmem : lh ∈ ls) :
    btreeGet lh (ls.foldl (fun acc k => btreeRemove k acc) L) = none := by
  induction ls generalizing L with
  | nil => simp at hmem
  | cons a t ih =>
    rcases List.mem_cons.mp hmem with heq | hmem'
    · subst heq
      by_cases hmem' : lh ∈ t
      · exact ih (btreeRemove lh L) (sortedKeys_remove lh L hL) hmem'
      · have hnone : btreeGet lh (btreeRemove lh L) = none :=
          btreeGet_remove_self lh L hL
        exact btreeGet_none_of_sublist lh
          (foldl_remove_sublist t (btreeRemove lh L)) hnone
    · exact ih (btreeRemove a L) (sortedKeys_remove a L hL) hmem'

theorem key_le_maxKey {α : Type} (k : Nat) (L : List (Nat × α)) (v : α)
    (h : btreeGet k L = some v) : k ≤ maxKey L := by
  induction L with
  | nil => simp [btreeGet] at h
  | cons a t ih =>
    obtain ⟨k1, v1⟩ := a
    by_cases heq : k = k1
    · subst heq
      simp [maxKey]
    · simp [btreeGet, heq] at h
      have := ih h
      simp [maxKey] at this ⊢
      right
      exact this

theorem nextHandle_eq_maxKey {α : Type} (l : List (Nat × α))
    (h : sortedKeys l) : nextHandle l = maxKey l + 1 := by
  induction l with
  | nil => rfl
  | cons a t ih =>
    obtain ⟨k1, v1⟩ := a
    cases t with
    | nil => simp [nextHandle, lastKeyValue, maxKey]
    | cons b t' =>
      have hpair := List.pairwise_cons.mp h
      have hlt : k1 < b.1 := hpair.1 b (by simp)
      have ht : sortedKeys (b :: t') := hpair.2
      have hb : b.1 ≤ maxKey (b :: t') := by
        obtain ⟨kb, vb⟩ := b
        simp [maxKey]
      have hk1 : k1 ≤ maxKey (b :: t') := le_of_lt (lt_of_lt_of_le hlt hb)
      have hnext : nextHandle ((k1, v1) :: b :: t') = nextHandle (b :: t') := by
        simp [nextHandle, lastKeyValue, List.getLast?_cons_cons]
      rw [hnext, ih ht]
      have : maxKey ((k1, v1) :: b :: t') = maxKey (b :: t') := by
        simp [maxKey] at hk1 ⊢
        omega
      omega

theorem btreeInsert_append {α : Type} (k : Nat) (v : α) (l : List (Nat × α))
    (h : ∀ p ∈ l, p.1 < k) : btreeInsert k v l = l ++ [(k, v)] := by
  induction l with
  | nil => rfl
  | cons a t ih =>
    obtain ⟨k1, v1⟩ := a
    have hk1 : k1 < k := h (k1, v1) (by simp)
    have h1 : ¬ k < k1 := by omega
    have h2 : k ≠ k1 := by omega
    simp [btreeInsert, h1, h2]
    exact ih fun p hp => h p (by simp [hp])

/-! ## Lemmas about `add_line_to_point` and `add_line` -/

theorem add_line_to_point_lines (m : Model) (ph lh : Nat) :
    (m.add_line_to_point ph lh).lines = m.lines := by
  cases hp : btreeGet ph m.points <;> simp [Model.add_line_to_point, hp]

theorem add_line_to_point_get (m : Model) (ph lh q : Nat) :
    btreeGet q (m.add_line_to_point ph lh).points =
      if q = ph then
        (btreeGet q m.points).map (fun p => { p with lines := p.lines ++ [lh] })
      else btreeGet q m.points := by
  by_cases hq : q = ph
  · subst hq
    cases hp : btreeGet q m.points with
    | none => simp [Model.add_line_to_point, hp]
    | some p => simp [Model.add_line_to_point, hp, btreeGet_insert_self]
  · cases hp : btreeGet ph m.points with
    | none => simp [Model.add_line_to_point, hp, hq]
    | some p => simp [Model.add_line_to_point, hp, hq, btreeGet_insert_ne q ph _ _ hq]

theorem add_line_lines (m : Model) (p1 p2 : Nat) :
    ((m.add_line p1 p2).2).lines =
      btreeInsert (nextHandle m.lines) ⟨p1, p2⟩ m.lines := by
  simp [Model.add_line, add_line_to_point_lines]

theorem add_line_fst (m : Model) (p1 p2 : Nat) :
    (m.add_line p1 p2).1 = nextHandle m.lines := rfl

theorem add_point_fst (m : Model) (x y z w : Int) :
    (m.add_point x y z w).1 = nextHandle m.points := rfl

theorem add_line_points_get (m : Model) (p1 p2 q : Nat) :
    btreeGet q ((m.add_line p1 p2).2).points =
      (btreeGet q m.points).map (fun p =>
        { p with lines := (p.lines ++ (if q = p1 then [nextHandle m.lines] else []))
            ++ (if q = p2 then [nextHandle m.lines] else []) }) := by
  have h2 := add_line_to_point_get
    (Model.add_line_to_point { m with lines := btreeInsert (nextHandle m.lines) ⟨p1, p2⟩ m.lines } p1 (nextHandle m.lines))
    p2 (nextHandle m.lines) q
  have h1 := add_line_to_point_get
    { m with lines := btreeInsert (nextHandle m.lines) ⟨p1, p2⟩ m.lines }
    p1 (nextHandle m.lines) q
  show btreeGet q (Model.add_line_to_point
      (Model.add_line_to_point { m with lines := btreeInsert (nextHandle m.lines) ⟨p1, p2⟩ m.lines } p1 (nextHandle m.lines))
      p2 (nextHandle m.lines)).points = _
  rw [h2, h1]
  by_cases hq1 : q = p1
  · subst hq1
    by_cases hq2 : q = p2
    · subst hq2
      cases hp : btreeGet q m.points <;> simp [hp]
    · cases hp : btreeGet q m.points <;> simp [hp, hq2]
  · by_cases hq2 : q = p2
    · subst hq2
      cases hp : btreeGet q m.points <;> simp [hp, hq1]
    · cases hp : btreeGet q m.points <;> simp [hp, hq1, hq2]

/-! ## Lemmas about sequences of `add_point` calls -/

theorem runAddPoints_from (cs : List (Int × Int × Int × Int)) :
    ∀ (k : Nat) (pl : List (Nat × Point)) (L : List (Nat × Line)),
      (∀ p ∈ pl, p.1 < k) → nextHandle pl = k →
      runAddPoints ⟨pl, L⟩ cs =
        (List.range' k cs.length, ⟨pl ++ pointsFrom k cs, L⟩) := by
  induction cs with
  | nil => intro k pl L _ _; simp [runAddPoints, pointsFrom]
  | cons c cs ih =>
    intro k pl L hlt hnext
    have hins : btreeInsert k (mkPoint c) pl = pl ++ [(k, mkPoint c)] :=
      btreeInsert_append k (mkPoint c) pl hlt
    have hlt' : ∀ p ∈ pl ++ [(k, mkPoint c)], p.1 < k + 1 := by
      intro p hp
      rcases List.mem_append.mp hp with hc | hc
      · exact Nat.lt_succ_of_lt (hlt p hc)
      · simp at hc; subst hc; omega
    have hnext' : nextHandle (pl ++ [(k, mkPoint c)]) = k + 1 := by
      simp [nextHandle, lastKeyValue, List.getLast?_concat]
    have hrec := ih (k + 1) (pl ++ [(k, mkPoint c)]) L hlt' hnext'
    obtain ⟨cx, cy, cz, cw⟩ := c
    simp only [runAddPoints, Model.add_point, hnext]
    rw [show btreeInsert k (⟨cx, cy, cz, cw, []⟩ : Point) pl = pl ++ [(k, mkPoint (cx, cy, cz, cw))] from hins]
    rw [hrec]
    simp [pointsFrom, List.range'_succ]

theorem btreeGet_pointsFrom (cs : List (Int × Int × Int × Int)) :
    ∀ (k i : Nat) (hi : i < cs.length),
      btreeGet (k + i) (pointsFrom k cs) = some (mkPoint (cs.get ⟨i, hi⟩)) := by
  induction cs with
  | nil => intro k i hi; simp at hi
  | cons c cs ih =>
    intro k i hi
    cases i with
    | zero => simp [pointsFrom, btreeGet]
    | succ j =>
      have hne : k + (j + 1) ≠ k := by omega
      have hj : j < cs.length := by simpa using Nat.lt_of_succ_lt_succ hi
      have := ih (k + 1) j hj
      simp only [pointsFrom, btreeGet, if_neg hne]
      rw [show k + (j + 1) = (k + 1) + j by omega]
      rw [this]
      rfl

/-! ## Claim C6: `get_point_lines` -/

/-- C6: `get_point_lines h` returns the stored incident-line list of point
`h` when `h` is present in the point mapping, and fails (the panic, modelled
as `none`) exactly when `h` is absent; under the precondition that `h` is
present the failure branch is unreachable. -/
theorem get_point_lines_spec (m : Model) (h : Nat) :
    (∀ p, btreeGet h m.points = some p → m.get_point_lines h = some p.lines) ∧
    (m.get_point_lines h = none ↔ btreeGet h m.points = none) := by
  constructor
  · intro p hp
    simp [Model.get_point_lines, hp]
  · cases hg : btreeGet h m.points <;> simp [Model.get_point_lines, hg]

theorem get_point_lines_spec_witness :
    Model.get_point_lines ⟨[(1, ⟨0, 0, 0, 0, [5]⟩)], []⟩ 1 = some [5] :=
  (get_point_lines_spec ⟨[(1, ⟨0, 0, 0, 0, [5]⟩)], []⟩ 1).1 ⟨0, 0, 0, 0, [5]⟩ rfl

/-! ## Claim C7: `del_line` -/

/-- C7: `del_line l` removes `l` from the line mapping if present (the line
count decreases by exactly one) and is a silent no-op if `l` is absent (the
model is unchanged); in either case no line is keyed by `l` afterwards. -/
theorem del_line_spec (m : Model) (l : Nat) (hwf : sortedKeys m.lines) :
    btreeGet l (m.del_line l).lines = none ∧
    (∀ ln, btreeGet l m.lines = some ln →
      (m.del_line l).lines.length + 1 = m.lines.length) ∧
    (btreeGet l m.lines = none → m.del_line l = m) := by
  refine ⟨btreeGet_remove_self l m.lines hwf, fun ln hln => ?_, fun hnone => ?_⟩
  · exact btreeRemove_length l m.lines ln hln
  · cases m with
    | mk pts lns => simp [Model.del_line, btreeRemove_of_get_none l lns hnone]

theorem del_line_spec_witness :
    btreeGet 1 (Model.del_line ⟨[], [(1, ⟨1, 2⟩)]⟩ 1).lines = none ∧
    (Model.del_line ⟨[], [(1, ⟨1, 2⟩)]⟩ 1).lines.length + 1 =
      (Model.lines ⟨[], [(1, ⟨1, 2⟩)]⟩).length :=
  ⟨(del_line_spec ⟨[], [(1, ⟨1, 2⟩)]⟩ 1 (by decide)).1,
   (del_line_spec ⟨[], [(1, ⟨1, 2⟩)]⟩ 1 (by decide)).2.1 ⟨1, 2⟩ rfl⟩

/-! ## Claim C8: `del_line` leaves the point mapping untouched -/

/-- C8: `del_line l` leaves the point mapping completely unchanged: every
point, its coordinates and its incident-line list are identical before and
after the call, so a deleted line's handle can remain as a stale entry in
its endpoints' lists. -/
theorem del_line_frame (m : Model) (l : Nat) :
    (m.del_line l).points = m.points ∧
    (∀ q, (m.del_line l).get_point_lines q = m.get_point_lines q) :=
  ⟨rfl, fun _ => rfl⟩

/-! ## Claim C9: point equality -/

/-- C9 counterexample: two points with identical coordinates whose
incident-line lists hold the same handles in different orders are *not*
equal, because the derived equality compares the `lines` vectors
element by element. -/
theorem point_eq_counterexample :
    (Point.mk 0 0 0 0 [1, 2]).x = (Point.mk 0 0 0 0 [2, 1]).x ∧
    (Point.mk 0 0 0 0 [1, 2]).y = (Point.mk 0 0 0 0 [2, 1]).y ∧
    (Point.mk 0 0 0 0 [1, 2]).z = (Point.mk 0 0 0 0 [2, 1]).z ∧
    (Point.mk 0 0 0 0 [1, 2]).w = (Point.mk 0 0 0 0 [2, 1]).w ∧
    (∀ a ∈ (Point.mk 0 0 0 0 [1, 2]).lines, a ∈ (Point.mk 0 0 0 0 [2, 1]).lines) ∧
    (∀ a ∈ (Point.mk 0 0 0 0 [2, 1]).lines, a ∈ (Point.mk 0 0 0 0 [1, 2]).lines) ∧
    Point.mk 0 0 0 0 [1, 2] ≠ Point.mk 0 0 0 0 [2, 1] := by
  decide

/-- C9 amended: two points are equal iff all four coordinates are pairwise
equal and their incident-line lists are equal as lists (same handles in the
same order with the same multiplicities). -/
theorem point_eq_iff (a b : Point) :
    a = b ↔ a.x = b.x ∧ a.y = b.y ∧ a.z = b.z ∧ a.w = b.w ∧ a.lines = b.lines := by
  cases a
  cases b
  simp [Point.mk.injEq]

/-! ## Claim C1: `del_point` cascade -/

/-- C1 counterexample: a line created by `add_line 2 1` before point `2`
existed is never recorded in point `2`'s incident-line list, so
`del_point 2` leaves it in the line mapping even though its `p1` endpoint
is `2` — the claim "every line that has `p` as an endpoint is removed"
fails. -/
theorem del_point_cascade_counterexample :
    btreeGet 2 ((((Model.new.add_point 0 0 0 0).2.add_line 2 1).2.add_point 1 1 1 1).2).points =
      some ⟨1, 1, 1, 1, []⟩ ∧
    (((Model.new.add_point 0 0 0 0).2.add_line 2 1).2.add_point 1 1 1 1).2.del_point 2 =
      some ⟨[(1, ⟨0, 0, 0, 0, [1]⟩)], [(1, ⟨2, 1⟩)]⟩ ∧
    (Line.mk 2 1).p1 = 2 ∧
    btreeGet 1 (Model.lines ⟨[(1, ⟨0, 0, 0, 0, [1]⟩)], [(1, ⟨2, 1⟩)]⟩) = some ⟨2, 1⟩ := by
  decide

/-- C1 amended: for a point `p` stored in the point mapping, `del_point p`
removes `p` from the point mapping and removes from the line mapping every
line handle recorded in `p`'s incident-line list; a line that references
`p` as an endpoint but was never recorded in that list (it was created
while `p` was absent) may survive. -/
theorem del_point_spec (m : Model) (p : Nat) (pt : Point) (hwf : m.WF)
    (hp : btreeGet p m.points = some pt) :
    ∃ m', m.del_point p = some m' ∧
      btreeGet p m'.points = none ∧
      (∀ lh ∈ pt.lines, btreeGet lh m'.lines = none) := by
  have hgl : m.get_point_lines p = some pt.lines := by
    simp [Model.get_point_lines, hp]
  refine ⟨⟨btreeRemove p m.points,
    pt.lines.foldl (fun acc lh => btreeRemove lh acc) m.lines⟩, ?_, ?_, ?_⟩
  · simp [Model.del_point, hgl]
  · exact btreeGet_remove_self p m.points hwf.1
  · intro lh hmem
    exact foldl_remove_get_none pt.lines m.lines hwf.2 lh hmem

theorem del_point_spec_witness :
    ∃ m', Model.del_point ⟨[(1, ⟨0, 0, 0, 0, [1]⟩), (2, ⟨1, 1, 1, 1, [1]⟩)], [(1, ⟨1, 2⟩)]⟩ 1 = some m' ∧
      btreeGet 1 m'.points = none ∧
      (∀ lh ∈ (Point.mk 0 0 0 0 [1]).lines, btreeGet lh m'.lines = none) :=
  del_point_spec ⟨[(1, ⟨0, 0, 0, 0, [1]⟩), (2, ⟨1, 1, 1, 1, [1]⟩)], [(1, ⟨1, 2⟩)]⟩ 1
    ⟨0, 0, 0, 0, [1]⟩ (by decide) rfl

/-! ## Claim C2: idempotence of the deletion operations -/

/-- C2 counterexample: after `del_point 1` succeeds, a second `del_point 1`
reaches the panicking map index inside `get_point_lines` (modelled as
`none`), so the second call is not a no-op. -/
theorem del_point_idem_counterexample :
    (Model.new.add_point 0 0 0 0).2.del_point 1 = some ⟨[], []⟩ ∧
    Model.del_point ⟨[], []⟩ 1 = none := by
  decide

/-- C2 amended: `del_line` is idempotent (the second call is a no-op), but
`del_point` is not: once `del_point h` has succeeded, a second
`del_point h` fails at the point lookup instead of being a no-op. -/
theorem del_idempotence (m : Model) (h : Nat) (hwf : m.WF) :
    (m.del_line h).del_line h = m.del_line h ∧
    (∀ m', m.del_point h = some m' → m'.del_point h = none) := by
  constructor
  · cases m with
    | mk pts lns =>
      simp only [Model.del_line]
      rw [btreeRemove_of_get_none h _ (btreeGet_remove_self h lns hwf.2)]
  · intro m' hm'
    cases hg : m.get_point_lines h with
    | none => simp [Model.del_point, hg] at hm'
    | some ls =>
      simp only [Model.del_point, hg, Option.some.injEq] at hm'
      have hpts : m'.points = btreeRemove h m.points := by
        rw [← hm']
      have hnone : btreeGet h m'.points = none := by
        rw [hpts]
        exact btreeGet_remove_self h m.points hwf.1
      simp [Model.del_point, Model.get_point_lines, hnone]

theorem del_idempotence_witness :
    (Model.del_line (Model.del_line ⟨[], [(1, ⟨1, 2⟩)]⟩ 1) 1) =
      Model.del_line ⟨[], [(1, ⟨1, 2⟩)]⟩ 1 ∧
    (∀ m', Model.del_point ⟨[], [(1, ⟨1, 2⟩)]⟩ 1 = some m' →
      Model.del_point m' 1 = none) :=
  del_idempotence ⟨[], [(1, ⟨1, 2⟩)]⟩ 1 (by decide)

/-! ## Claim C3: handle allocation -/

/-- C3 counterexample: after creating points `1` and `2` and deleting point
`2`, the next `add_point` returns handle `2` again — a handle previously
assigned to a point that has since been deleted is reused. -/
theorem handle_reuse_counterexample :
    ((Model.new.add_point 0 0 0 0).2.add_point 1 1 1 1).1 = 2 ∧
    ((Model.new.add_point 0 0 0 0).2.add_point 1 1 1 1).2.del_point 2 =
      some ⟨[(1, ⟨0, 0, 0, 0, []⟩)], []⟩ ∧
    (Model.add_point ⟨[(1, ⟨0, 0, 0, 0, []⟩)], []⟩ 2 2 2 2).1 = 2 := by
  decide

/-- C3 amended: new handles are always the maximum handle *currently
stored* plus one (`1` when the collection is empty), hence strictly larger
than every currently stored handle; but when the maximum-handle entity has
been deleted, the allocator can hand out a previously used handle again,
so handles are not never-reused. -/
theorem add_handle_spec (m : Model) (x y z w : Int) (p1 p2 : Nat) (hwf : m.WF) :
    (m.add_point x y z w).1 = maxKey m.points + 1 ∧
    (m.add_line p1 p2).1 = maxKey m.lines + 1 ∧
    (∀ k pt, btreeGet k m.points = some pt → k < (m.add_point x y z w).1) ∧
    (∀ k ln, btreeGet k m.lines = some ln → k < (m.add_line p1 p2).1) := by
  have hpt : (m.add_point x y z w).1 = maxKey m.points + 1 := by
    rw [add_point_fst, nextHandle_eq_maxKey m.points hwf.1]
  have hln : (m.add_line p1 p2).1 = maxKey m.lines + 1 := by
    rw [add_line_fst, nextHandle_eq_maxKey m.lines hwf.2]
  refine ⟨hpt, hln, fun k pt hk => ?_, fun k ln hk => ?_⟩
  · rw [hpt]
    exact Nat.lt_succ_of_le (key_le_maxKey k m.points pt hk)
  · rw [hln]
    exact Nat.lt_succ_of_le (key_le_maxKey k m.lines ln hk)

theorem add_handle_spec_witness :
    (Model.add_point ⟨[(1, ⟨0, 0, 0, 0, []⟩), (4, ⟨1, 1, 1, 1, []⟩)], []⟩ 5 5 5 5).1 =
      maxKey (Model.points ⟨[(1, ⟨0, 0, 0, 0, []⟩), (4, ⟨1, 1, 1, 1, []⟩)], []⟩) + 1 ∧
    (Model.add_line ⟨[(1, ⟨0, 0, 0, 0, []⟩), (4, ⟨1, 1, 1, 1, []⟩)], []⟩ 1 4).1 =
      maxKey (Model.lines ⟨[(1, ⟨0, 0, 0, 0, []⟩), (4, ⟨1, 1, 1, 1, []⟩)], []⟩) + 1 ∧
    (∀ k pt, btreeGet k (Model.points ⟨[(1, ⟨0, 0, 0, 0, []⟩), (4, ⟨1, 1, 1, 1, []⟩)], []⟩) = some pt →
      k < (Model.add_point ⟨[(1, ⟨0, 0, 0, 0, []⟩), (4, ⟨1, 1, 1, 1, []⟩)], []⟩ 5 5 5 5).1) ∧
    (∀ k ln, btreeGet k (Model.lines ⟨[(1, ⟨0, 0, 0, 0, []⟩), (4, ⟨1, 1, 1, 1, []⟩)], []⟩) = some ln →
      k < (Model.add_line ⟨[(1, ⟨0, 0, 0, 0, []⟩), (4, ⟨1, 1, 1, 1, []⟩)], []⟩ 1 4).1) :=
  add_handle_spec ⟨[(1, ⟨0, 0, 0, 0, []⟩), (4, ⟨1, 1, 1, 1, []⟩)], []⟩ 5 5 5 5 1 4 (by decide)

/-! ## Claim C4: `add_line` is total and best-effort on adjacency -/

/-- C4: `add_line p1 p2` always stores a new line referencing `p1` and `p2`
under the returned handle, raising no error even when an endpoint does not
exist; the returned handle is added to the incident-line list of each
endpoint that exists in the point mapping (so `get_point_lines` on an
existing endpoint contains it afterwards), and the adjacency update is
silently skipped for an absent endpoint (which stays absent). -/
theorem add_line_total_spec (m : Model) (p1 p2 : Nat) :
    btreeGet (m.add_line p1 p2).1 ((m.add_line p1 p2).2).lines = some ⟨p1, p2⟩ ∧
    (∀ l1, m.get_point_lines p1 = some l1 →
      ∃ l', (m.add_line p1 p2).2.get_point_lines p1 = some l' ∧ (m.add_line p1 p2).1 ∈ l') ∧
    (∀ l2, m.get_point_lines p2 = some l2 →
      ∃ l', (m.add_line p1 p2).2.get_point_lines p2 = some l' ∧ (m.add_line p1 p2).1 ∈ l') ∧
    (m.get_point_lines p1 = none → (m.add_line p1 p2).2.get_point_lines p1 = none) ∧
    (m.get_point_lines p2 = none → (m.add_line p1 p2).2.get_point_lines p2 = none) := by
  have hg1 := add_line_points_get m p1 p2 p1
  have hg2 := add_line_points_get m p1 p2 p2
  refine ⟨?_, fun l1 h1 => ?_, fun l2 h2 => ?_, fun h1 => ?_, fun h2 => ?_⟩
  · rw [add_line_lines, add_line_fst]
    exact btreeGet_insert_self _ _ _
  · cases hp : btreeGet p1 m.points with
    | none => simp [Model.get_point_lines, hp] at h1
    | some pt =>
      refine ⟨(pt.lines ++ [nextHandle m.lines]) ++ (if p1 = p2 then [nextHandle m.lines] else []), ?_, ?_⟩
      · simp [Model.get_point_lines, hg1, hp]
      · rw [add_line_fst]
        simp
  · cases hp : btreeGet p2 m.points with
    | none => simp [Model.get_point_lines, hp] at h2
    | some pt =>
      refine ⟨(pt.lines ++ (if p2 = p1 then [nextHandle m.lines] else [])) ++ [nextHandle m.lines], ?_, ?_⟩
      · simp [Model.get_point_lines, hg2, hp]
      · rw [add_line_fst]
        simp
  · cases hp : btreeGet p1 m.points with
    | some pt => simp [Model.get_point_lines, hp] at h1
    | none => simp [Model.get_point_lines, hg1, hp]
  · cases hp : btreeGet p2 m.points with
    | some pt => simp [Model.get_point_lines, hp] at h2
    | none => simp [Model.get_point_lines, hg2, hp]

theorem add_line_total_spec_witness :
    btreeGet (Model.add_line ⟨[(1, ⟨0, 0, 0, 0, []⟩)], []⟩ 1 7).1
      ((Model.add_line ⟨[(1, ⟨0, 0, 0, 0, []⟩)], []⟩ 1 7).2).lines = some ⟨1, 7⟩ ∧
    (∃ l', (Model.add_line ⟨[(1, ⟨0, 0, 0, 0, []⟩)], []⟩ 1 7).2.get_point_lines 1 = some l' ∧
      (Model.add_line ⟨[(1, ⟨0, 0, 0, 0, []⟩)], []⟩ 1 7).1 ∈ l') ∧
    (Model.add_line ⟨[(1, ⟨0, 0, 0, 0, []⟩)], []⟩ 1 7).2.get_point_lines 7 = none :=
  ⟨(add_line_total_spec ⟨[(1, ⟨0, 0, 0, 0, []⟩)], []⟩ 1 7).1,
   (add_line_total_spec ⟨[(1, ⟨0, 0, 0, 0, []⟩)], []⟩ 1 7).2.1 [] rfl,
   (add_line_total_spec ⟨[(1, ⟨0, 0, 0, 0, []⟩)], []⟩ 1 7).2.2.2.2 rfl⟩

/-! ## Claim C5: sequences of `add_point` calls -/

/-- C5: starting from the empty model, a sequence of `add_point` calls
returns the strictly increasing handles `1, 2, 3, …`; each handle's stored
point has exactly the coordinates passed to that call and an empty
incident-line list; and line handles are issued by an independent sequence
that also starts at `1`. -/
theorem add_point_sequence_spec (cs : List (Int × Int × Int × Int)) :
    (runAddPoints Model.new cs).1 = List.range' 1 cs.length ∧
    (runAddPoints Model.new cs).2.points = pointsFrom 1 cs ∧
    (∀ i (hi : i < cs.length),
      btreeGet (i + 1) (runAddPoints Model.new cs).2.points =
        some (mkPoint (cs.get ⟨i, hi⟩))) ∧
    (∀ p q, ((runAddPoints Model.new cs).2.add_line p q).1 = 1) := by
  have hrun := runAddPoints_from cs 1 [] [] (by simp) rfl
  have hnew : Model.new = (⟨[], []⟩ : Model) := rfl
  rw [hnew, hrun]
  refine ⟨rfl, by simp, fun i hi => ?_, fun p q => ?_⟩
  · have := btreeGet_pointsFrom cs 1 i hi
    rw [Nat.add_comm i 1]
    simpa using this
  · simp [add_line_fst, nextHandle, lastKeyValue]

theorem add_point_sequence_spec_witness :
    (runAddPoints Model.new [((0 : Int), (0 : Int), (0 : Int), (0 : Int)),
        ((5 : Int), (6 : Int), (7 : Int), (8 : Int))]).1 = List.range' 1 2 ∧
    btreeGet 2 (runAddPoints Model.new [((0 : Int), (0 : Int), (0 : Int), (0 : Int)),
        ((5 : Int), (6 : Int), (7 : Int), (8 : Int))]).2.points =
      some (mkPoint ((5 : Int), (6 : Int), (7 : Int), (8 : Int))) :=
  ⟨(add_point_sequence_spec [((0 : Int), (0 : Int), (0 : Int), (0 : Int)),
      ((5 : Int), (6 : Int), (7 : Int), (8 : Int))]).1,
   (add_point_sequence_spec [((0 : Int), (0 : Int), (0 : Int), (0 : Int)),
      ((5 : Int), (6 : Int), (7 : Int), (8 : Int))]).2.2.1 1 (by decide)⟩

/-! ## Claim C10: incident-line lists record attachment order -/

/-- C10: `add_line` appends the new handle at the end of each existing
endpoint's incident-line list (so immediately afterwards the new handle is
the last element of `get_point_lines` on that endpoint), and no operation
ever reorders a surviving point's previously attached handles:
`add_point`, `del_line` and `del_point` leave every other point's list
exactly as it was. -/
theorem line_order_spec (m : Model) (hwf : m.WF) :
    (∀ p1 p2 q l, m.get_point_lines q = some l →
      (m.add_line p1 p2).2.get_point_lines q =
        some ((l ++ (if q = p1 then [(m.add_line p1 p2).1] else []))
          ++ (if q = p2 then [(m.add_line p1 p2).1] else []))) ∧
    (∀ p1 p2 q l, m.get_point_lines q = some l → (q = p1 ∨ q = p2) →
      ∃ l', (m.add_line p1 p2).2.get_point_lines q = some l' ∧
        l'.getLast? = some (m.add_line p1 p2).1) ∧
    (∀ x y z w q l, m.get_point_lines q = some l →
      ((m.add_point x y z w).2).get_point_lines q = some l) ∧
    (∀ lh q, (m.del_line lh).get_point_lines q = m.get_point_lines q) ∧
    (∀ p m', m.del_point p = some m' → ∀ q, q ≠ p →
      m'.get_point_lines q = m.get_point_lines q) := by
  have happ : ∀ p1 p2 q l, m.get_point_lines q = some l →
      (m.add_line p1 p2).2.get_point_lines q =
        some ((l ++ (if q = p1 then [(m.add_line p1 p2).1] else []))
          ++ (if q = p2 then [(m.add_line p1 p2).1] else [])) := by
    intro p1 p2 q l hl
    cases hp : btreeGet q m.points with
    | none => simp [Model.get_point_lines, hp] at hl
    | some pt =>
      simp only [Model.get_point_lines, hp, Option.some.injEq] at hl
      subst hl
      simp [Model.get_point_lines, add_line_points_get m p1 p2 q, hp, add_line_fst]
  refine ⟨happ, fun p1 p2 q l hl hor => ?_, fun x y z w q l hl => ?_, fun lh q => rfl,
    fun p m' hm' q hq => ?_⟩
  · refine ⟨_, happ p1 p2 q l hl, ?_⟩
    by_cases hq2 : q = p2
    · simp [hq2]
    · rcases hor with hq1 | hq1
      · subst hq1
        simp [hq2]
      · exact absurd hq1 hq2
  · cases hp : btreeGet q m.points with
    | none => simp [Model.get_point_lines, hp] at hl
    | some pt =>
      simp only [Model.get_point_lines, hp, Option.some.injEq] at hl
      subst hl
      have hle : q ≤ maxKey m.points := key_le_maxKey q m.points pt hp
      have hne : q ≠ nextHandle m.points := by
        rw [nextHandle_eq_maxKey m.points hwf.1]
        omega
      have : btreeGet q ((m.add_point x y z w).2).points = btreeGet q m.points := by
        show btreeGet q (btreeInsert (nextHandle m.points) ⟨x, y, z, w, []⟩ m.points) = _
        exact btreeGet_insert_ne q (nextHandle m.points) _ m.points hne
      simp [Model.get_point_lines, this, hp]
  · cases hg : m.get_point_lines p with
    | none => simp [Model.del_point, hg] at hm'
    | some ls =>
      simp only [Model.del_point, hg, Option.some.injEq] at hm'
      have hpts : m'.points = btreeRemove p m.points := by rw [← hm']
      have : btreeGet q m'.points = btreeGet q m.points := by
        rw [hpts]
        exact btreeGet_remove_ne q p m.points hq
      simp [Model.get_point_lines, this]

theorem line_order_spec_witness :
    (Model.add_line ⟨[(1, ⟨0, 0, 0, 0, []⟩)], []⟩ 1 1).2.get_point_lines 1 =
      some ((([] : List Nat) ++
        (if (1 : Nat) = 1 then [(Model.add_line ⟨[(1, ⟨0, 0, 0, 0, []⟩)], []⟩ 1 1).1] else []))
        ++ (if (1 : Nat) = 1 then [(Model.add_line ⟨[(1, ⟨0, 0, 0, 0, []⟩)], []⟩ 1 1).1] else [])) :=
  (line_order_spec ⟨[(1, ⟨0, 0, 0, 0, []⟩)], []⟩ (by decide)).1 1 1 1 [] rfl

end SolidModel
